import Mathlib

/-!
Shallow embedding of `src/call_depth.py`, a script that ranks a target C
function by the maximum depth of its static call tree.

The script is a pure function of the outputs of the external commands it
shells out to (`git ls-files | grep`, `find`, `ctags -x`, `cflow`).  We model
those outputs as inputs (an `Env` record, with the per-function `cflow`
output as a function of the function name) and translate the Python code
into Lean definitions over them.

Modelling conventions:
* Python `str` values are Lean `String`s; subprocess output is read with
  `universal_newlines=True`, so line terminators in the modelled strings are
  `\n`, `\r\n` or `\r`, which is what our `pySplitlines` splits on (Python
  `str.splitlines` additionally treats some rare Unicode terminators as line
  breaks; none occur in the tool outputs modelled here).
* `float` arithmetic on the percentile (`100.0 * rank / len(depths)`) is
  modelled exactly over `ℚ`; the quartile indices `int(0.25*n)`,
  `int(0.50*n)`, `int(0.75*n)` are exact in IEEE double for every list
  length `n` that can arise, and equal the natural-number divisions
  `n / 4`, `n / 2`, `3 * n / 4`.
* Python's `sorted`/`list.sort` is a deterministic stable comparison sort.
  Every comparison used by the script is antisymmetric on the values being
  sorted (plain `≤` on `Nat`, and the key `(-depth, name)` on dict items
  whose names are distinct), so every correct sort produces the same list;
  we use Mathlib's `List.insertionSort`, which reduces definitionally.
* `bisect.bisect_right` from the Python standard library is translated as
  the actual binary search loop it implements.
-/

/-- One step of Python `str.splitlines`: split a character list at `\r\n`,
`\n` or `\r`, accumulating the current line in reverse in `acc`.  As in
Python, a trailing terminator does not produce a final empty line. -/
def splitlinesGo : List Char → List Char → List String
  | [], acc => if acc.isEmpty then [] else [String.mk acc.reverse]
  | '\r' :: '\n' :: rest, acc => String.mk acc.reverse :: splitlinesGo rest []
  | '\n' :: rest, acc => String.mk acc.reverse :: splitlinesGo rest []
  | '\r' :: rest, acc => String.mk acc.reverse :: splitlinesGo rest []
  | c :: rest, acc => splitlinesGo rest (c :: acc)

/-- Python `str.splitlines`. -/
def pySplitlines (s : String) : List String :=
  splitlinesGo s.data []

/-- Python `str.strip()`: remove leading and trailing whitespace
(`' '`, `'\t'`, `'\r'`, `'\n'` — the whitespace that can occur in the
line-oriented tool outputs modelled here). -/
def pyStrip (s : String) : String :=
  String.mk (((s.data.dropWhile Char.isWhitespace).reverse.dropWhile
    Char.isWhitespace).reverse)

/-- Worker for Python `str.split()` with no argument: split on runs of
whitespace, never producing empty tokens.  `tok` holds the current token in
reverse. -/
def splitWsGo : List Char → List Char → List String
  | [], tok => if tok.isEmpty then [] else [String.mk tok.reverse]
  | c :: rest, tok =>
    if c.isWhitespace then
      if tok.isEmpty then splitWsGo rest []
      else String.mk tok.reverse :: splitWsGo rest []
    else splitWsGo rest (c :: tok)

/-- Python `str.split()` with no argument: the whitespace-delimited tokens
of the string. -/
def pySplitWs (s : String) : List String :=
  splitWsGo s.data []

/-- `len(line) - len(line.lstrip(' '))`: the number of leading space
characters (only `' '`, exactly as `lstrip(' ')` removes). -/
def leadingSpaces (line : String) : Nat :=
  (line.data.takeWhile (· = ' ')).length

/-- Python string comparison `a <= b`: lexicographic by code point, i.e.
the lexicographic order on the character lists. -/
def pyStrLe (a b : String) : Prop :=
  List.Lex (· < ·) a.data b.data ∨ a.data = b.data

instance : DecidableRel pyStrLe := fun a b => by
  unfold pyStrLe; infer_instance

instance : IsTotal String pyStrLe where
  total a b := by
    unfold pyStrLe
    rcases (List.Lex.isTrichotomous (r := (· < ·))).trichotomous a.data b.data
      with h | h | h
    · exact Or.inl (Or.inl h)
    · exact Or.inl (Or.inr h)
    · exact Or.inr (Or.inl h)

instance : IsTrans String pyStrLe where
  trans a b c hab hbc := by
    unfold pyStrLe at *
    rcases hab with h1 | h1
    · rcases hbc with h2 | h2
      · exact Or.inl (Trans.trans h1 h2)
      · exact Or.inl (h2 ▸ h1)
    · rcases hbc with h2 | h2
      · exact Or.inl (h1 ▸ h2)
      · exact Or.inr (h1.trans h2)

/-- `sorted(set(funcs))` for strings: the distinct elements in ascending
lexicographic order. -/
def pySortedSet (funcs : List String) : List String :=
  funcs.dedup.insertionSort pyStrLe

/-- `list_functions` from `src/call_depth.py`, as a function of the outputs
of the three commands it runs: `gitOut` is the stdout of
`git -C SRC_ROOT ls-files | grep -E FILE_GLOB || true`, `findOut` the stdout
of the `find` fallback, `ctagsOut` the stdout of
`ctags -x --c-kinds=f <files>`.
```
files = run(gitcmd).stdout.strip().splitlines()
if not files: files = run(findcmd).stdout.strip().splitlines()
if not files: return []
out = run(ctagscmd).stdout
funcs = []
for line in out.splitlines():
    parts = line.split()
    if parts: funcs.append(parts[0])
return sorted(set(funcs))
``` -/
def list_functions (gitOut findOut ctagsOut : String) : List String :=
  let files := pySplitlines (pyStrip gitOut)
  let files := if files.isEmpty then pySplitlines (pyStrip findOut) else files
  if files.isEmpty then []
  else
    let funcs := (pySplitlines ctagsOut).foldl
      (fun acc line =>
        match pySplitWs line with
        | [] => acc
        | p :: _ => acc ++ [p]) []
    pySortedSet funcs

/-- `max_call_depth_for` from `src/call_depth.py`, as a function of the
stdout `text` of the `cflow` invocation for the function:
```
if not text.strip(): return None
maxdepth = 0
for i, line in enumerate(text.splitlines(), 1):
    if i == 1: continue
    leading = len(line) - len(line.lstrip(' '))
    depth = leading // 2
    if depth > maxdepth: maxdepth = depth
return maxdepth
``` -/
def max_call_depth_for (text : String) : Option Nat :=
  if pyStrip text = "" then none
  else some (((pySplitlines text).drop 1).foldl
    (fun maxdepth line =>
      let leading := leadingSpaces line
      let depth := leading / 2
      if depth > maxdepth then depth else maxdepth) 0)

/-- The loop of Python's `bisect.bisect_right(a, x)` (with the default
`lo=0, hi=len(a)`):
```
while lo < hi:
    mid = (lo + hi) // 2
    if x < a[mid]: hi = mid
    else: lo = mid + 1
return lo
```
The read `a[mid]` is modelled with `getD _ 0`; every call the program makes
keeps `hi ≤ a.length`, so the default is never consulted.  The `while` loop
shrinks `hi - lo` by at least one per iteration, so it runs at most
`hi - lo` times; we make that termination argument explicit with a `fuel`
parameter (kept structural so the function reduces definitionally), and
`bisectLoop_correct` below shows the result does not depend on the fuel as
long as it is at least `hi - lo`. -/
def bisectLoop (a : List Nat) (x : Nat) : Nat → Nat → Nat → Nat
  | 0, lo, _hi => lo
  | fuel + 1, lo, hi =>
    if lo < hi then
      let mid := (lo + hi) / 2
      if x < a.getD mid 0 then bisectLoop a x fuel lo mid
      else bisectLoop a x fuel (mid + 1) hi
    else lo

/-- Python `bisect.bisect_right(a, x)` (defaults `lo=0, hi=len(a)`). -/
def bisect_right (a : List Nat) (x : Nat) : Nat :=
  bisectLoop a x a.length 0 a.length

/-- Ascending sort of the depth list: `depths.sort()`. -/
def pySortNat (l : List Nat) : List Nat :=
  l.insertionSort (· ≤ ·)

/-- Sort key of the top-20 listing,
`sorted(depth_map.items(), key=lambda x: (-x[1], x[0]))`: item `a` precedes
item `b` when `(-a.depth, a.name) ≤ (-b.depth, b.name)` lexicographically,
i.e. deeper first, ties by ascending name. -/
def topKeyLe (a b : String × Nat) : Prop :=
  b.2 < a.2 ∨ (a.2 = b.2 ∧ pyStrLe a.1 b.1)

instance : DecidableRel topKeyLe := fun a b => by
  unfold topKeyLe; infer_instance

instance : IsTotal (String × Nat) topKeyLe where
  total a b := by
    unfold topKeyLe
    rcases Nat.lt_trichotomy a.2 b.2 with h | h | h
    · exact Or.inr (Or.inl h)
    · rcases IsTotal.total (r := pyStrLe) a.1 b.1 with h' | h'
      · exact Or.inl (Or.inr ⟨h, h'⟩)
      · exact Or.inr (Or.inr ⟨h.symm, h'⟩)
    · exact Or.inl (Or.inl h)

instance : IsTrans (String × Nat) topKeyLe where
  trans a b c hab hbc := by
    unfold topKeyLe at *
    rcases hab with h1 | ⟨e1, n1⟩
    · rcases hbc with h2 | ⟨e2, n2⟩
      · exact Or.inl (h2.trans h1)
      · exact Or.inl (e2 ▸ h1)
    · rcases hbc with h2 | ⟨e2, n2⟩
      · exact Or.inl (e1 ▸ h2)
      · exact Or.inr ⟨e1.trans e2, Trans.trans n1 n2⟩

/-- `sorted(depth_map.items(), key=lambda x: (-x[1], x[0]))[:20]`. -/
def top20 (depth_map : List (String × Nat)) : List (String × Nat) :=
  (depth_map.insertionSort topKeyLe).take 20

/-- The classification printed by the final `if/elif/else` of `main`. -/
inductive Classification where
  | deep
  | shallow
  | midRange
deriving DecidableEq, Repr

/-- The data of the success report printed by `main` (target present in the
depth map): everything after the `td is None` check. -/
structure Report where
  target : String
  td : Nat
  rank : Nat
  pct : ℚ
  q1 : Nat
  q2 : Nat
  q3 : Nat
  classification : Classification
  top : List (String × Nat)
deriving DecidableEq, Repr

/-- How a run of `main` ends: each `sys.exit` site, or the success report. -/
inductive Outcome where
  | usage
  | noFuncs
  | noDepths
  | targetMissing (top : List (String × Nat))
  | success (r : Report)
deriving DecidableEq, Repr

/-- The exit status of the process for each outcome (`sys.exit(1..4)`, or
the implicit 0 on falling off the end of `main`). -/
def exitCode : Outcome → Nat
  | .usage => 1
  | .noFuncs => 2
  | .noDepths => 3
  | .targetMissing _ => 4
  | .success _ => 0

/-- The outputs of the external commands the script runs, plus `sys.argv`.
`argv` includes the program name at position 0, as in Python.  `cflow` maps
a function name to the stdout of the `cflow` invocation rooted at it. -/
structure Env where
  argv : List String
  gitOut : String
  findOut : String
  ctagsOut : String
  cflow : String → String

/-- `main` from `src/call_depth.py`, translated statement by statement.
The `depths`/`depth_map` accumulation loop is the `foldl`; `depth_map` is a
Python dict built by inserting fresh keys (the `funcs` are deduplicated), so
it is modelled as an association list in insertion order. -/
def mainRun (env : Env) : Outcome :=
  if env.argv.length < 2 then .usage
  else
    let target := env.argv.getD 1 ""
    let funcs := list_functions env.gitOut env.findOut env.ctagsOut
    if funcs = [] then .noFuncs
    else
      let md := funcs.foldl
        (fun acc f =>
          match max_call_depth_for (env.cflow f) with
          | none => acc
          | some d => (acc.1 ++ [d], acc.2 ++ [(f, d)]))
        (([], []) : List Nat × List (String × Nat))
      let depth_map := md.2
      if md.1 = [] then .noDepths
      else
        let depths := pySortNat md.1
        match depth_map.lookup target with
        | none => .targetMissing (top20 depth_map)
        | some td =>
          let rank := bisect_right depths td
          let pct : ℚ := 100 * (rank : ℚ) / (depths.length : ℚ)
          let q1 := depths.getD (depths.length / 4) 0
          let q2 := depths.getD (depths.length / 2) 0
          let q3 := depths.getD (3 * depths.length / 4) 0
          let cls :=
            if td ≥ q3 then Classification.deep
            else if td ≤ q1 then Classification.shallow
            else Classification.midRange
          .success ⟨target, td, rank, pct, q1, q2, q3, cls, top20 depth_map⟩

/-! ### Named pipeline stages

The following definitions name the intermediate values of `main` (its local
variables `target`, `funcs`, `depths`, `depth_map`) as functions of the
environment, so that the theorems below can speak about them.  The loop that
builds `depths` and `depth_map` is re-expressed with `filterMap`;
`measure_foldl` proves this is what the `foldl` in `mainRun` computes. -/

/-- `target = sys.argv[1]` (only evaluated when `len(sys.argv) ≥ 2`). -/
def targetOf (env : Env) : String :=
  env.argv.getD 1 ""

/-- `funcs = list_functions(src_root, file_glob)`. -/
def funcsOf (env : Env) : List String :=
  list_functions env.gitOut env.findOut env.ctagsOut

/-- The `depths` list built by the measurement loop: the measured depth of
each function whose `cflow` output is usable, in `funcs` order. -/
def depthsOf (env : Env) : List Nat :=
  (funcsOf env).filterMap (fun f => max_call_depth_for (env.cflow f))

/-- The `depth_map` dict built by the measurement loop, as an association
list in insertion order (its keys, drawn from the deduplicated `funcs`, are
distinct). -/
def depthMapOf (env : Env) : List (String × Nat) :=
  (funcsOf env).filterMap
    (fun f => (max_call_depth_for (env.cflow f)).map (fun d => (f, d)))

/-- The sorted depth list after `depths.sort()`. -/
def sortedDepthsOf (env : Env) : List Nat :=
  pySortNat (depthsOf env)

/-- The success report as a function of the environment and the target's
depth `td` (the success branch of `main` after `depth_map.get(target)`). -/
def reportOf (env : Env) (td : Nat) : Report :=
  let depths := sortedDepthsOf env
  let rank := bisect_right depths td
  let q1 := depths.getD (depths.length / 4) 0
  let q2 := depths.getD (depths.length / 2) 0
  let q3 := depths.getD (3 * depths.length / 4) 0
  { target := targetOf env
    td := td
    rank := rank
    pct := 100 * (rank : ℚ) / (depths.length : ℚ)
    q1 := q1
    q2 := q2
    q3 := q3
    classification :=
      if td ≥ q3 then Classification.deep
      else if td ≤ q1 then Classification.shallow
      else Classification.midRange
    top := top20 (depthMapOf env) }

/-- The per-line depths the measurement loop looks at: every line of the
`cflow` output except the first (the root), valued at its count of leading
spaces integer-divided by the 2-space indentation step. -/
def lineDepths (text : String) : List Nat :=
  ((pySplitlines text).drop 1).map (fun line => leadingSpaces line / 2)

/-- The names the `ctags -x` parsing loop appends: the first
whitespace-delimited token of each output line that has one. -/
def ctagsNames (ctagsOut : String) : List String :=
  (pySplitlines ctagsOut).filterMap (fun line => (pySplitWs line).head?)

/-! ### Concrete environments used to witness the theorems

`envW` produces three measurable functions `a`, `b`, `c` of depths 0, 2, 4
and analyses target `b`; the other environments tweak its `argv` or tool
outputs to drive each early exit of `main`. -/

def envW : Env where
  argv := ["call_depth.py", "b"]
  gitOut := "x.c\n"
  findOut := ""
  ctagsOut := "a function x.c /^a$/\nb function x.c /^b$/\nc function x.c /^c$/\n"
  cflow := fun f =>
    if f = "a" then "a <int a at x.c:1>\n"
    else if f = "b" then "b <int b at x.c:2>\n    g\n"
    else if f = "c" then "c <int c at x.c:3>\n        h\n"
    else ""

/-- `envW` with target `a` (depth 0, at the lower quartile). -/
def envA : Env :=
  { envW with argv := ["call_depth.py", "a"] }

/-- All three functions measure at depth 2, so Q1 = Q2 = Q3 = 2. -/
def envEq : Env :=
  { envW with
    argv := ["call_depth.py", "b"]
    cflow := fun _ => "f <int f at x.c:1>\n    g\n" }

/-- No target argument: `sys.argv` is just the program name. -/
def envUsage : Env :=
  { envW with argv := ["call_depth.py"] }

/-- Neither `git` nor `find` lists any file, so no function is found. -/
def envNoFuncs : Env :=
  { envW with gitOut := "", findOut := "" }

/-- `cflow` produces whitespace-only output for every function, so every
measurement is unmeasurable. -/
def envNoDepths : Env :=
  { envW with cflow := fun _ => " \n" }

/-- The requested target is not among the measured functions. -/
def envMissing : Env :=
  { envW with argv := ["call_depth.py", "zzz"] }

theorem measure_foldl (c : String → String) (l : List String)
    (a : List Nat) (b : List (String × Nat)) :
    l.foldl
      (fun acc f =>
        match max_call_depth_for (c f) with
        | none => acc
        | some d => (acc.1 ++ [d], acc.2 ++ [(f, d)])) (a, b)
    = (a ++ l.filterMap (fun f => max_call_depth_for (c f)),
       b ++ l.filterMap (fun f => (max_call_depth_for (c f)).map (fun d => (f, d)))) := by
  induction l generalizing a b with
  | nil => simp
  | cons f t ih =>
    simp only [List.foldl_cons, List.filterMap_cons]
    cases h : max_call_depth_for (c f) with
    | none => simp [h, ih]
    | some d => simp [h, ih, List.append_assoc]

/-- `mainRun` decomposed through the named pipeline stages. -/
theorem mainRun_eq (env : Env) :
    mainRun env =
      if env.argv.length < 2 then .usage
      else if funcsOf env = [] then .noFuncs
      else if depthsOf env = [] then .noDepths
      else
        match (depthMapOf env).lookup (targetOf env) with
        | none => .targetMissing (top20 (depthMapOf env))
        | some td => .success (reportOf env td) := by
  unfold mainRun
  split
  · rfl
  · simp only [measure_foldl, List.nil_append]
    rfl

/-! ### Correctness of the binary search -/

/-- In an ascending-sorted list, the elements `≤ x` are exactly those at
positions below `countP (· ≤ x)`. -/
theorem sorted_le_countP_char (x : Nat) :
    ∀ (a : List Nat), a.Sorted (· ≤ ·) →
      ∀ i (h : i < a.length), (a[i] ≤ x ↔ i < a.countP (fun y => y ≤ x)) := by
  intro a
  induction a with
  | nil => intro _ i h; simp at h
  | cons b t ih =>
    intro hs i h
    obtain ⟨hb, ht⟩ := List.sorted_cons.mp hs
    by_cases hbx : b ≤ x
    · rw [List.countP_cons_of_pos _ _ (by simpa using hbx)]
      cases i with
      | zero => simp [hbx]
      | succ j =>
        simp only [List.getElem_cons_succ]
        rw [ih ht j (by simpa using h)]
        omega
    · rw [List.countP_cons_of_neg _ _ (by simpa using hbx)]
      have hzero : t.countP (fun y => y ≤ x) = 0 := by
        rw [List.countP_eq_zero]
        intro c hc
        simp only [decide_eq_true_eq]
        exact fun hcx => hbx (le_trans (hb c hc) hcx)
      rw [hzero]
      simp only [Nat.not_lt_zero, iff_false]
      cases i with
      | zero => simpa using hbx
      | succ j =>
        simp only [List.getElem_cons_succ]
        intro hcx
        exact hbx (le_trans (hb _ (List.getElem_mem _)) hcx)

/-- The binary-search loop finds the unique index `k` splitting the list
into a prefix of elements `≤ x` and a suffix of elements `> x`, for any
fuel of at least `hi - lo`. -/
theorem bisectLoop_correct (a : List Nat) (x k : Nat)
    (_hk : k ≤ a.length)
    (H1 : ∀ i (h : i < a.length), i < k → a[i] ≤ x)
    (H2 : ∀ i (h : i < a.length), k ≤ i → x < a[i]) :
    ∀ fuel lo hi, hi - lo ≤ fuel → lo ≤ k → k ≤ hi → hi ≤ a.length →
      bisectLoop a x fuel lo hi = k := by
  intro fuel
  induction fuel with
  | zero =>
    intro lo hi h1 h2 h3 _
    simp only [bisectLoop]
    omega
  | succ fuel ih =>
    intro lo hi h1 h2 h3 h4
    rw [bisectLoop]
    by_cases hlh : lo < hi
    · rw [if_pos hlh]
      show (if x < a.getD ((lo + hi) / 2) 0 then bisectLoop a x fuel lo ((lo + hi) / 2)
            else bisectLoop a x fuel ((lo + hi) / 2 + 1) hi) = k
      set mid := (lo + hi) / 2 with hmid
      have hmlo : lo ≤ mid := by omega
      have hmhi : mid < hi := by omega
      have hmlen : mid < a.length := lt_of_lt_of_le hmhi h4
      rw [List.getD_eq_getElem a 0 hmlen]
      by_cases hx : x < a[mid]
      · rw [if_pos hx]
        have hkm : k ≤ mid := by
          by_contra hc
          push_neg at hc
          exact absurd (H1 mid hmlen hc) (not_le.mpr hx)
        exact ih lo mid (by omega) h2 hkm (le_of_lt hmlen)
      · rw [if_neg hx]
        have hkm : mid < k := by
          by_contra hc
          push_neg at hc
          exact absurd (H2 mid hmlen hc) hx
        exact ih (mid + 1) hi (by omega) (by omega) h3 h4
    · rw [if_neg hlh]
      omega

/-- On an ascending-sorted list, `bisect_right` returns the number of
elements that are `≤ x`: the upper-bound insertion position. -/
theorem bisect_right_eq_countP (a : List Nat) (x : Nat)
    (hs : a.Sorted (· ≤ ·)) :
    bisect_right a x = a.countP (fun y => y ≤ x) := by
  unfold bisect_right
  exact bisectLoop_correct a x _ (List.countP_le_length _)
    (fun i h hi => (sorted_le_countP_char x a hs i h).mpr hi)
    (fun i h hi => by
      by_contra hc
      push_neg at hc
      exact absurd ((sorted_le_countP_char x a hs i h).mp hc) (by omega))
    a.length 0 a.length (by omega) (Nat.zero_le _) (List.countP_le_length _)
    (le_refl _)

/-- `List.lookup` only returns values paired with the key in the list. -/
theorem lookup_mem_pair {β : Type} (k : String) (v : β) :
    ∀ (m : List (String × β)), m.lookup k = some v → (k, v) ∈ m := by
  intro m
  induction m with
  | nil => intro h; simp [List.lookup] at h
  | cons e t ih =>
    intro h
    rw [List.lookup] at h
    by_cases hk : k == e.1
    · simp only [hk] at h
      have hke : k = e.1 := by simpa using hk
      have hkv : (k, v) = e := by
        cases e
        simp_all
      rw [hkv]
      exact List.mem_cons_self _ _
    · simp only [hk] at h
      exact List.mem_cons_of_mem _ (ih (by simpa using h))

/-! ### Helper lemmas about the pipeline stages -/

theorem splitlinesGo_ne_nil (l acc : List Char) (h : l ≠ [] ∨ acc ≠ []) :
    splitlinesGo l acc ≠ [] := by
  induction l, acc using splitlinesGo.induct with
  | case1 acc hacc =>
    rcases h with h | h
    · exact absurd rfl h
    · exact absurd (List.isEmpty_iff.mp hacc) h
  | case2 acc hacc =>
    rw [splitlinesGo, if_neg hacc]
    simp
  | case3 rest acc _ => rw [splitlinesGo]; simp
  | case4 rest acc _ => rw [splitlinesGo]; simp
  | case5 rest acc hne _ =>
    rw [splitlinesGo]
    · simp
    · exact hne
  | case6 c rest acc h1 h2 h3 ih =>
    rw [splitlinesGo]
    · exact ih (Or.inr (by simp))
    · exact h1
    · exact h2
    · exact h3

/-- `s.splitlines()` is empty exactly when `s` is the empty string. -/
theorem pySplitlines_eq_nil_iff (s : String) : pySplitlines s = [] ↔ s = "" := by
  constructor
  · intro h
    by_contra hs
    refine splitlinesGo_ne_nil s.data [] (Or.inl fun hd => hs ?_) h
    cases s with
    | mk data =>
      simp only [String.data] at hd
      rw [hd]
  · rintro rfl
    rfl

/-- The measured depth list is exactly the values of the depth map. -/
theorem depthsOf_eq_map_snd (env : Env) :
    depthsOf env = (depthMapOf env).map Prod.snd := by
  unfold depthsOf depthMapOf
  induction funcsOf env with
  | nil => rfl
  | cons f t ih =>
    simp only [List.filterMap_cons]
    cases h : max_call_depth_for (env.cflow f) with
    | none => simpa using ih
    | some d => simpa using ih

/-- Membership in the depth map: exactly the measurable enumerated
functions, paired with their measured depth. -/
theorem mem_depthMapOf (env : Env) (f : String) (d : Nat) :
    (f, d) ∈ depthMapOf env ↔
      f ∈ funcsOf env ∧ max_call_depth_for (env.cflow f) = some d := by
  simp only [depthMapOf, List.mem_filterMap, Option.map_eq_some']
  constructor
  · rintro ⟨g, hg, d', hd', heq⟩
    have hgf : g = f := congrArg Prod.fst heq
    have hdd : d' = d := congrArg Prod.snd heq
    subst hgf; subst hdd
    exact ⟨hg, hd'⟩
  · rintro ⟨hf, hd⟩
    exact ⟨f, hf, d, hd, rfl⟩

theorem mem_depthsOf (env : Env) (f : String) (d : Nat)
    (hf : f ∈ funcsOf env) (hd : max_call_depth_for (env.cflow f) = some d) :
    d ∈ depthsOf env := by
  exact List.mem_filterMap.mpr ⟨f, hf, hd⟩

theorem sortedDepthsOf_sorted (env : Env) :
    (sortedDepthsOf env).Sorted (· ≤ ·) :=
  List.sorted_insertionSort _ _

theorem sortedDepthsOf_perm (env : Env) :
    (sortedDepthsOf env).Perm (depthsOf env) :=
  List.perm_insertionSort _ _

/-- In an ascending-sorted list, indexing is monotone. -/
theorem sorted_getD_mono {l : List Nat} (hs : l.Sorted (· ≤ ·)) {i j : Nat}
    (hij : i ≤ j) (hj : j < l.length) : l.getD i 0 ≤ l.getD j 0 := by
  rw [List.getD_eq_getElem l 0 (lt_of_le_of_lt hij hj), List.getD_eq_getElem l 0 hj]
  rcases eq_or_lt_of_le hij with rfl | hlt
  · exact le_refl _
  · exact List.pairwise_iff_getElem.mp hs i j _ _ hlt

/-- Inversion of a successful run: the guards that were passed on the way
to the success branch, and the shape of the report. -/
theorem success_inv (env : Env) (r : Report) (h : mainRun env = .success r) :
    depthsOf env ≠ [] ∧
      ∃ td, (depthMapOf env).lookup (targetOf env) = some td ∧ r = reportOf env td := by
  rw [mainRun_eq] at h
  by_cases h1 : env.argv.length < 2
  · simp [h1] at h
  · rw [if_neg h1] at h
    by_cases h2 : funcsOf env = []
    · simp [h2] at h
    · rw [if_neg h2] at h
      by_cases h3 : depthsOf env = []
      · simp [h3] at h
      · rw [if_neg h3] at h
        cases hl : (depthMapOf env).lookup (targetOf env) with
        | none => rw [hl] at h; simp at h
        | some td =>
          rw [hl] at h
          simp only [Outcome.success.injEq] at h
          exact ⟨h3, td, rfl, h.symm⟩

/-- Inversion of a target-not-found run. -/
theorem targetMissing_inv (env : Env) (t : List (String × Nat))
    (h : mainRun env = .targetMissing t) : t = top20 (depthMapOf env) := by
  rw [mainRun_eq] at h
  by_cases h1 : env.argv.length < 2
  · simp [h1] at h
  · rw [if_neg h1] at h
    by_cases h2 : funcsOf env = []
    · simp [h2] at h
    · rw [if_neg h2] at h
      by_cases h3 : depthsOf env = []
      · simp [h3] at h
      · rw [if_neg h3] at h
        cases hl : (depthMapOf env).lookup (targetOf env) with
        | none =>
          rw [hl] at h
          simpa using h.symm
        | some td => rw [hl] at h; simp at h

theorem reportOf_target (env : Env) (td : Nat) :
    (reportOf env td).target = targetOf env := rfl

theorem reportOf_td (env : Env) (td : Nat) : (reportOf env td).td = td := rfl

theorem reportOf_rank (env : Env) (td : Nat) :
    (reportOf env td).rank = bisect_right (sortedDepthsOf env) td := rfl

theorem reportOf_pct (env : Env) (td : Nat) :
    (reportOf env td).pct =
      100 * ((reportOf env td).rank : ℚ) / ((sortedDepthsOf env).length : ℚ) := rfl

theorem reportOf_q1 (env : Env) (td : Nat) :
    (reportOf env td).q1 =
      (sortedDepthsOf env).getD ((sortedDepthsOf env).length / 4) 0 := rfl

theorem reportOf_q2 (env : Env) (td : Nat) :
    (reportOf env td).q2 =
      (sortedDepthsOf env).getD ((sortedDepthsOf env).length / 2) 0 := rfl

theorem reportOf_q3 (env : Env) (td : Nat) :
    (reportOf env td).q3 =
      (sortedDepthsOf env).getD (3 * (sortedDepthsOf env).length / 4) 0 := rfl

theorem reportOf_classification (env : Env) (td : Nat) :
    (reportOf env td).classification =
      if td ≥ (reportOf env td).q3 then Classification.deep
      else if td ≤ (reportOf env td).q1 then Classification.shallow
      else Classification.midRange := rfl

theorem reportOf_top (env : Env) (td : Nat) :
    (reportOf env td).top = top20 (depthMapOf env) := rfl

/-- What the running-maximum loop of `max_call_depth_for` computes: an upper
bound of all visited values that is either the initial value or one of
them. -/
theorem foldl_pymax_spec (f : String → Nat) :
    ∀ (L : List String) (a : Nat),
      a ≤ L.foldl (fun m l => if f l > m then f l else m) a ∧
      (∀ l ∈ L, f l ≤ L.foldl (fun m l => if f l > m then f l else m) a) ∧
      (L.foldl (fun m l => if f l > m then f l else m) a = a ∨
        ∃ l ∈ L, L.foldl (fun m l => if f l > m then f l else m) a = f l) := by
  intro L
  induction L with
  | nil => intro a; exact ⟨le_refl _, by simp, Or.inl rfl⟩
  | cons x t ih =>
    intro a
    simp only [List.foldl_cons]
    obtain ⟨h1, h2, h3⟩ := ih (if f x > a then f x else a)
    refine ⟨?_, ?_, ?_⟩
    · refine le_trans ?_ h1
      split <;> omega
    · intro l hl
      rcases List.mem_cons.mp hl with rfl | hl
      · refine le_trans ?_ h1
        split <;> omega
      · exact h2 l hl
    · rcases h3 with h3 | ⟨l, hl, h3⟩
      · rw [h3]
        split
        · exact Or.inr ⟨x, List.mem_cons_self _ _, rfl⟩
        · exact Or.inl rfl
      · exact Or.inr ⟨l, List.mem_cons_of_mem _ hl, h3⟩

/-- The token-collecting loop of `list_functions` appends the first token
of each line that has one. -/
theorem tokens_foldl (L : List String) (acc : List String) :
    L.foldl
      (fun acc line =>
        match pySplitWs line with
        | [] => acc
        | p :: _ => acc ++ [p]) acc
      = acc ++ L.filterMap (fun line => (pySplitWs line).head?) := by
  induction L generalizing acc with
  | nil => simp
  | cons x t ih =>
    simp only [List.foldl_cons, List.filterMap_cons]
    cases h : pySplitWs x with
    | nil => simp [h, ih]
    | cons p ps => simp [h, ih, List.append_assoc]

/-- `list_functions` in closed form: empty when both file listings are
empty, otherwise the sorted set of first tokens of the `ctags` output. -/
theorem list_functions_eq (g f c : String) :
    list_functions g f c =
      if pyStrip g = "" ∧ pyStrip f = "" then []
      else pySortedSet (ctagsNames c) := by
  unfold list_functions
  simp only [tokens_foldl, List.nil_append, List.isEmpty_iff]
  by_cases hg : pyStrip g = ""
  · have hgl : pySplitlines (pyStrip g) = [] := (pySplitlines_eq_nil_iff _).mpr hg
    rw [if_pos hgl]
    by_cases hf : pyStrip f = ""
    · have hfl : pySplitlines (pyStrip f) = [] := (pySplitlines_eq_nil_iff _).mpr hf
      rw [if_pos hfl, if_pos ⟨hg, hf⟩]
    · have hfl : pySplitlines (pyStrip f) ≠ [] :=
        fun hh => hf ((pySplitlines_eq_nil_iff _).mp hh)
      rw [if_neg hfl, if_neg (fun hh => hf hh.2)]
      rfl
  · have hgl : pySplitlines (pyStrip g) ≠ [] :=
      fun hh => hg ((pySplitlines_eq_nil_iff _).mp hh)
    rw [if_neg hgl, if_neg hgl, if_neg (fun hh => hg hh.1)]
    rfl

/-- The rank `bisect.bisect_right(depths, td)` computed by `main` equals
the number of measured depths that are `≤ td`. -/
theorem rank_eq_count (env : Env) (td : Nat) :
    bisect_right (sortedDepthsOf env) td =
      (depthsOf env).countP (fun d => d ≤ td) := by
  rw [bisect_right_eq_countP _ _ (sortedDepthsOf_sorted env)]
  exact (sortedDepthsOf_perm env).countP_eq _

/-! ### Claim theorems -/

/-- C3: for every call-graph tool output with usable content, the depth
measurer excludes the first output line, assigns every other line a depth
of its leading-space count integer-divided by 2 (the entries of
`lineDepths`), and returns the maximum such depth — an upper bound of all
non-root line depths that is attained by one of them, or 0 when no
non-root line exists. -/
theorem C3_depth_is_max_of_nonroot_lines (text : String)
    (h : pyStrip text ≠ "") :
    ∃ m, max_call_depth_for text = some m ∧
      (∀ d ∈ lineDepths text, d ≤ m) ∧
      (m = 0 ∨ m ∈ lineDepths text) := by
  rw [max_call_depth_for, if_neg h]
  obtain ⟨h1, h2, h3⟩ := foldl_pymax_spec (fun line => leadingSpaces line / 2)
    ((pySplitlines text).drop 1) 0
  refine ⟨_, rfl, ?_, ?_⟩
  · intro d hd
    rw [lineDepths] at hd
    obtain ⟨line, hline, rfl⟩ := List.mem_map.mp hd
    exact h2 line hline
  · rcases h3 with h3 | ⟨l, hl, h3⟩
    · exact Or.inl h3
    · refine Or.inr ?_
      rw [lineDepths]
      exact List.mem_map.mpr ⟨l, hl, h3.symm⟩

theorem C3_witness :
    pyStrip "r\n  a\n      b\n" ≠ "" ∧
    (∃ m, max_call_depth_for "r\n  a\n      b\n" = some m ∧
      (∀ d ∈ lineDepths "r\n  a\n      b\n", d ≤ m) ∧
      (m = 0 ∨ m ∈ lineDepths "r\n  a\n      b\n")) :=
  ⟨by decide, C3_depth_is_max_of_nonroot_lines "r\n  a\n      b\n" (by decide)⟩

/-- C4: the depth measurer returns the `none` sentinel exactly when the
tool output is empty or whitespace-only; a single root line yields depth
`some 0`; a function measured at depth `d` (0 included) appears in the
depth map and contributes `d` to the depth list; an unmeasurable function
appears in neither — the depth list is exactly the values of the map. -/
theorem C4_unmeasurable_sentinel (env : Env) (f text : String) (d : Nat) :
    (max_call_depth_for text = none ↔ pyStrip text = "") ∧
    ((pySplitlines text).length = 1 → pyStrip text ≠ "" →
      max_call_depth_for text = some 0) ∧
    (f ∈ funcsOf env → max_call_depth_for (env.cflow f) = some d →
      (f, d) ∈ depthMapOf env ∧ d ∈ depthsOf env) ∧
    (max_call_depth_for (env.cflow f) = none →
      ∀ d', (f, d') ∉ depthMapOf env) ∧
    depthsOf env = (depthMapOf env).map Prod.snd := by
  refine ⟨?_, ?_, ?_, ?_, depthsOf_eq_map_snd env⟩
  · by_cases hs : pyStrip text = "" <;> simp [max_call_depth_for, hs]
  · intro hlen hs
    rw [max_call_depth_for, if_neg hs]
    have hdrop : (pySplitlines text).drop 1 = [] := by
      rw [List.drop_eq_nil_iff, hlen]
    rw [hdrop]
    rfl
  · intro hf hd
    exact ⟨(mem_depthMapOf env f d).mpr ⟨hf, hd⟩, mem_depthsOf env f d hf hd⟩
  · intro hnone d' hmem
    have := ((mem_depthMapOf env f d').mp hmem).2
    rw [hnone] at this
    exact Option.noConfusion this

theorem C4_witness :
    (max_call_depth_for "  \n " = none) ∧
    (max_call_depth_for "root\n" = some 0) ∧
    (("a", 0) ∈ depthMapOf envW ∧ 0 ∈ depthsOf envW) ∧
    (∀ d', ("a", d') ∉ depthMapOf envNoDepths) := by
  refine ⟨?_, ?_, ?_, ?_⟩
  · exact (C4_unmeasurable_sentinel envW "a" "  \n " 0).1.mpr (by decide)
  · exact (C4_unmeasurable_sentinel envW "a" "root\n" 0).2.1 (by decide) (by decide)
  · exact (C4_unmeasurable_sentinel envW "a" "" 0).2.2.1 (by decide) (by decide)
  · exact (C4_unmeasurable_sentinel envNoDepths "a" "" 0).2.2.2.1 (by decide)

/-- C9: for every pair of tool outputs, the function enumerator returns a
deduplicated, lexicographically sorted list of names, each name being the
first whitespace-delimited token of a symbol-extractor output line, and
returns the empty collection when no files (both listings empty) or no
symbols are found. -/
theorem C9_enumerator_sorted_dedup_tokens (g f c : String) :
    ((list_functions g f c).Sorted pyStrLe ∧ (list_functions g f c).Nodup) ∧
    (¬(pyStrip g = "" ∧ pyStrip f = "") →
      ∀ name, name ∈ list_functions g f c ↔ name ∈ ctagsNames c) ∧
    ((pyStrip g = "" ∧ pyStrip f = "") ∨ ctagsNames c = [] →
      list_functions g f c = []) := by
  rw [list_functions_eq]
  by_cases hh : pyStrip g = "" ∧ pyStrip f = ""
  · rw [if_pos hh]
    exact ⟨⟨List.sorted_nil, List.nodup_nil⟩,
      fun hcon => absurd hh hcon, fun _ => rfl⟩
  · rw [if_neg hh]
    refine ⟨⟨List.sorted_insertionSort _ _, ?_⟩, ?_, ?_⟩
    · exact ((List.perm_insertionSort _ _).nodup_iff).mpr (List.nodup_dedup _)
    · intro _ name
      simp [pySortedSet, List.mem_insertionSort, List.mem_dedup]
    · rintro (hcon | hnil)
      · exact absurd hcon hh
      · rw [hnil]
        rfl

theorem C9_witness :
    ((list_functions "x.c\n" "" "b one\na two\nb three\n").Sorted pyStrLe ∧
      (list_functions "x.c\n" "" "b one\na two\nb three\n").Nodup) ∧
    ("a" ∈ list_functions "x.c\n" "" "b one\na two\nb three\n" ↔
      "a" ∈ ctagsNames "b one\na two\nb three\n") ∧
    list_functions "" "" "b one\na two\nb three\n" = [] := by
  refine ⟨(C9_enumerator_sorted_dedup_tokens "x.c\n" "" _).1, ?_, ?_⟩
  · exact (C9_enumerator_sorted_dedup_tokens "x.c\n" "" _).2.1 (by decide) "a"
  · exact (C9_enumerator_sorted_dedup_tokens "" "" _).2.2 (Or.inl (by decide))

/-- C1: whenever the run succeeds, the reported rank equals the number of
measured depths less than or equal to the target's depth (the upper-bound
position in the sorted depth list), and the reported percentile equals 100
times that rank divided by the total number of measured depths. -/
theorem C1_rank_and_percentile (env : Env) (r : Report)
    (h : mainRun env = .success r) :
    r.rank = ((depthsOf env).filter (fun d => d ≤ r.td)).length ∧
    r.pct = 100 * (r.rank : ℚ) / ((depthsOf env).length : ℚ) := by
  obtain ⟨hne, td, hlook, rfl⟩ := success_inv env r h
  constructor
  · rw [reportOf_rank, reportOf_td, rank_eq_count, List.countP_eq_length_filter]
  · rw [reportOf_pct, (sortedDepthsOf_perm env).length_eq]

theorem C1_witness :
    mainRun envW = .success (reportOf envW 2) ∧
    depthsOf envW = [0, 2, 4] ∧
    (reportOf envW 2).td = 2 ∧
    (reportOf envW 2).rank =
      ((depthsOf envW).filter (fun d => d ≤ (reportOf envW 2).td)).length ∧
    (reportOf envW 2).rank = 2 ∧
    (reportOf envW 2).pct = 100 * 2 / 3 := by
  have h := C1_rank_and_percentile envW (reportOf envW 2) rfl
  refine ⟨rfl, by decide, rfl, h.1, by decide, ?_⟩
  rw [h.2, show (reportOf envW 2).rank = 2 from rfl,
    show (depthsOf envW).length = 3 from rfl]
  norm_num

/-- C7: whenever the target is present in the depth map (a successful
run), the computed rank lies within `[1, total measured count]` and the
computed percentile lies within `[0, 100]`. -/
theorem C7_rank_percentile_bounds (env : Env) (r : Report)
    (h : mainRun env = .success r) :
    1 ≤ r.rank ∧ r.rank ≤ (depthsOf env).length ∧
    0 ≤ r.pct ∧ r.pct ≤ 100 := by
  obtain ⟨hne, td, hlook, rfl⟩ := success_inv env r h
  have hmem : td ∈ depthsOf env := by
    have hpair := lookup_mem_pair (targetOf env) td (depthMapOf env) hlook
    have hm := (mem_depthMapOf env (targetOf env) td).mp hpair
    exact mem_depthsOf env (targetOf env) td hm.1 hm.2
  have hrank : (reportOf env td).rank = (depthsOf env).countP (fun d => d ≤ td) := by
    rw [reportOf_rank, rank_eq_count]
  have h1 : 1 ≤ (reportOf env td).rank := by
    rw [hrank]
    have hp : 0 < (depthsOf env).countP (fun d => d ≤ td) :=
      List.countP_pos_iff.mpr ⟨td, hmem, by simp⟩
    omega
  have h2 : (reportOf env td).rank ≤ (depthsOf env).length := by
    rw [hrank]
    exact List.countP_le_length _
  have hnpos : 0 < (depthsOf env).length := List.length_pos.mpr hne
  refine ⟨h1, h2, ?_, ?_⟩
  · rw [reportOf_pct]
    positivity
  · rw [reportOf_pct, (sortedDepthsOf_perm env).length_eq,
      div_le_iff₀ (by exact_mod_cast hnpos)]
    have hcast : ((reportOf env td).rank : ℚ) ≤ ((depthsOf env).length : ℚ) := by
      exact_mod_cast h2
    nlinarith

theorem C7_witness :
    1 ≤ (reportOf envW 2).rank ∧
    (reportOf envW 2).rank ≤ (depthsOf envW).length ∧
    0 ≤ (reportOf envW 2).pct ∧ (reportOf envW 2).pct ≤ 100 :=
  C7_rank_percentile_bounds envW (reportOf envW 2) rfl

/-- C6: whenever the run succeeds, the reported quartiles (elements at the
truncated 25%, 50%, 75% index positions of the ascending-sorted depth
list) satisfy Q1 ≤ Q2 ≤ Q3. -/
theorem C6_quartiles_ordered (env : Env) (r : Report)
    (h : mainRun env = .success r) : r.q1 ≤ r.q2 ∧ r.q2 ≤ r.q3 := by
  obtain ⟨hne, td, hlook, rfl⟩ := success_inv env r h
  have hs := sortedDepthsOf_sorted env
  have hpos : 0 < (sortedDepthsOf env).length := by
    rw [(sortedDepthsOf_perm env).length_eq]
    exact List.length_pos.mpr hne
  rw [reportOf_q1, reportOf_q2, reportOf_q3]
  constructor
  · exact sorted_getD_mono hs (by omega) (by omega)
  · exact sorted_getD_mono hs (by omega) (by omega)

theorem C6_witness :
    (reportOf envW 2).q1 ≤ (reportOf envW 2).q2 ∧
    (reportOf envW 2).q2 ≤ (reportOf envW 2).q3 :=
  C6_quartiles_ordered envW (reportOf envW 2) rfl

/-- C10: for every non-empty depth list, the three quartile indices
`int(0.25*n)`, `int(0.50*n)`, `int(0.75*n)` into the sorted depth list of
length `n` are strictly below `n`, so the quartile lookups never read out
of range. -/
theorem C10_quartile_indices_in_bounds (env : Env) (h : depthsOf env ≠ []) :
    (sortedDepthsOf env).length / 4 < (sortedDepthsOf env).length ∧
    (sortedDepthsOf env).length / 2 < (sortedDepthsOf env).length ∧
    3 * (sortedDepthsOf env).length / 4 < (sortedDepthsOf env).length := by
  have hpos : 0 < (sortedDepthsOf env).length := by
    rw [(sortedDepthsOf_perm env).length_eq]
    exact List.length_pos.mpr h
  omega

theorem C10_witness :
    (sortedDepthsOf envW).length / 4 < (sortedDepthsOf envW).length ∧
    (sortedDepthsOf envW).length / 2 < (sortedDepthsOf envW).length ∧
    3 * (sortedDepthsOf envW).length / 4 < (sortedDepthsOf envW).length :=
  C10_quartile_indices_in_bounds envW (by decide)

/-- C2 counterexample: in `envEq` every measured depth is 2, so
Q1 = Q2 = Q3 = 2 and the target's depth 2 equals Q1; the claim demands the
classification "shallow" in this case (lower boundary inclusive even when
Q1 = Q3), but the code tests `td >= q3` first and reports "deep". -/
theorem C2_counterexample :
    mainRun envEq = .success (reportOf envEq 2) ∧
    (reportOf envEq 2).td = (reportOf envEq 2).q1 ∧
    (reportOf envEq 2).q1 = (reportOf envEq 2).q3 ∧
    (reportOf envEq 2).classification ≠ Classification.shallow ∧
    (reportOf envEq 2).classification = Classification.deep :=
  ⟨rfl, rfl, rfl, by decide, by decide⟩

/-- C2 (amended): a target depth at or above Q3 is classified "deep"
(upper boundary inclusive), and a target depth at or below Q1 is
classified "shallow" (lower boundary inclusive) provided it is strictly
below Q3; when Q1 = Q3, a depth equal to both boundaries takes the "deep"
branch, which is tested first. -/
theorem C2_classification_boundaries (env : Env) (r : Report)
    (h : mainRun env = .success r) :
    (r.q3 ≤ r.td → r.classification = Classification.deep) ∧
    (r.td ≤ r.q1 → r.td < r.q3 → r.classification = Classification.shallow) := by
  obtain ⟨hne, td, hlook, rfl⟩ := success_inv env r h
  rw [reportOf_td, reportOf_classification]
  constructor
  · intro hq3
    rw [if_pos hq3]
  · intro hq1 hq3
    rw [if_neg (by omega), if_pos hq1]

theorem C2_witness :
    (reportOf envEq 2).classification = Classification.deep ∧
    (reportOf envA 0).classification = Classification.shallow := by
  constructor
  · exact (C2_classification_boundaries envEq (reportOf envEq 2) rfl).1 (by decide)
  · exact (C2_classification_boundaries envA (reportOf envA 0) rfl).2
      (by decide) (by decide)

/-- C5: the process exit status is 1 when the target argument is missing,
2 when the enumerator returns no functions, 3 when no function's depth
could be measured, 4 when the target is absent from the depth map (and the
top-20 fallback carried by that outcome is the top-20 of the depth map),
and 0 on success. -/
theorem C5_exit_codes (env : Env) :
    exitCode (mainRun env) =
      (if env.argv.length < 2 then 1
       else if funcsOf env = [] then 2
       else if depthsOf env = [] then 3
       else if ((depthMapOf env).lookup (targetOf env)).isNone then 4
       else 0) ∧
    (∀ t, mainRun env = .targetMissing t → t = top20 (depthMapOf env)) := by
  constructor
  · rw [mainRun_eq]
    by_cases h1 : env.argv.length < 2
    · simp [h1, exitCode]
    · rw [if_neg h1, if_neg h1]
      by_cases h2 : funcsOf env = []
      · simp [h2, exitCode]
      · rw [if_neg h2, if_neg h2]
        by_cases h3 : depthsOf env = []
        · simp [h3, exitCode]
        · rw [if_neg h3, if_neg h3]
          cases hl : (depthMapOf env).lookup (targetOf env) with
          | none => simp [hl, exitCode]
          | some td => simp [hl, exitCode]
  · intro t ht
    exact targetMissing_inv env t ht

theorem C5_witness :
    exitCode (mainRun envUsage) = 1 ∧
    exitCode (mainRun envNoFuncs) = 2 ∧
    exitCode (mainRun envNoDepths) = 3 ∧
    exitCode (mainRun envMissing) = 4 ∧
    exitCode (mainRun envW) = 0 ∧
    [("c", 4), ("b", 2), ("a", 0)] = top20 (depthMapOf envMissing) := by
  refine ⟨?_, ?_, ?_, ?_, ?_, ?_⟩
  · rw [(C5_exit_codes envUsage).1]; decide
  · rw [(C5_exit_codes envNoFuncs).1]; decide
  · rw [(C5_exit_codes envNoDepths).1]; decide
  · rw [(C5_exit_codes envMissing).1]; decide
  · rw [(C5_exit_codes envW).1]; decide
  · exact (C5_exit_codes envMissing).2 [("c", 4), ("b", 2), ("a", 0)] (by decide)

/-- C8: every printed top-20 list — the one carried by the
target-not-found outcome and the one in the success report — is sorted by
descending depth with ties broken by ascending lexicographic name, and has
exactly `min 20 (number of measured functions)` entries, hence at most
20. -/
theorem C8_top20_sorted_bounded (env : Env) :
    (∀ t, mainRun env = .targetMissing t →
      t.Pairwise (fun a b => b.2 < a.2 ∨ (a.2 = b.2 ∧ pyStrLe a.1 b.1)) ∧
      t.length = min 20 (depthMapOf env).length) ∧
    (∀ r, mainRun env = .success r →
      r.top.Pairwise (fun a b => b.2 < a.2 ∨ (a.2 = b.2 ∧ pyStrLe a.1 b.1)) ∧
      r.top.length = min 20 (depthMapOf env).length) := by
  have key : ∀ m : List (String × Nat),
      (top20 m).Pairwise topKeyLe ∧ (top20 m).length = min 20 m.length := by
    intro m
    constructor
    · exact List.Pairwise.sublist (List.take_sublist 20 _)
        (List.sorted_insertionSort topKeyLe m)
    · rw [top20, List.length_take, List.length_insertionSort]
  constructor
  · intro t ht
    rw [targetMissing_inv env t ht]
    exact key (depthMapOf env)
  · intro r hr
    obtain ⟨hne, td, hlook, rfl⟩ := success_inv env r hr
    rw [reportOf_top]
    exact key (depthMapOf env)

theorem C8_witness :
    ((top20 (depthMapOf envMissing)).Pairwise
        (fun a b => b.2 < a.2 ∨ (a.2 = b.2 ∧ pyStrLe a.1 b.1)) ∧
      (top20 (depthMapOf envMissing)).length = min 20 (depthMapOf envMissing).length) ∧
    ((reportOf envW 2).top.Pairwise
        (fun a b => b.2 < a.2 ∨ (a.2 = b.2 ∧ pyStrLe a.1 b.1)) ∧
      (reportOf envW 2).top.length = min 20 (depthMapOf envW).length) :=
  ⟨(C8_top20_sorted_bounded envMissing).1 (top20 (depthMapOf envMissing)) (by decide),
    (C8_top20_sorted_bounded envW).2 (reportOf envW 2) rfl⟩
